import Mathlib

/-!
Verification of the write-safety subsystem of mcp-firebase: the audit
ledger (`src/audit.ts`), the backup manager with its filename codec
(`src/backup.ts`), the YAML snapshot codec (`src/yaml-sync.ts`), and the
`withAudit` write-guard orchestrator (`src/routes.ts`).

Each TypeScript function relevant to the verified properties is shallowly
embedded as an executable Lean definition; external effects (the clock,
the filesystem, the remote database) are passed in explicitly as inputs and
returned as explicit outputs (operation traces, appended ledger entries).
-/

namespace McpFirebase

/-- Operation kinds (`AuditOp` in `src/audit.ts`). -/
inductive AuditOp where
  | put
  | patch
  | delete
  | push
  | load
deriving DecidableEq, Repr, Inhabited

/-- Status of a write attempt (`'ok' | 'error'` in `src/audit.ts`). -/
inductive Status where
  | ok
  | error
deriving DecidableEq, Repr, Inhabited

/-- A JavaScript thrown value, as observed by the `catch (e)` blocks of
`withAudit`: `message` is `e.message` when the property exists (it may be
the empty string), `str` is `String(e)`. -/
structure Thrown where
  message : Option String
  str : String
deriving DecidableEq, Repr

/-- `e.message || String(e)` (line 57 of `src/routes.ts`): JavaScript
falls back to `String(e)` when `e.message` is `undefined` or `""`. -/
def derivedMsg (e : Thrown) : String :=
  match e.message with
  | some m => if m = "" then e.str else m
  | none => e.str

/-- One ledger record (`AuditEntry` in `src/audit.ts`).  `backupFile` and
`error` are `none` when the corresponding object field is absent;
`durationMs` is always written by `withAudit`. -/
structure AuditEntry where
  id : String
  ts : String
  op : AuditOp
  path : String
  status : Status
  backupFile : Option String
  error : Option String
  durationMs : Nat
deriving DecidableEq, Repr, Inhabited

/-- `AuditLogOptions` / the `audit` argument of `withAudit`: what the
orchestrator reads from a configured `AuditLog`. -/
structure AuditCfg where
  enabled : Bool
deriving DecidableEq, Repr

/-- The slice of `BackupManagerOptions` read by `withAudit` (line 40 of
`src/routes.ts`): `options.enabled` and `options.operations`. -/
structure BackupCfg where
  enabled : Bool
  operations : List AuditOp
deriving DecidableEq, Repr

/-- Default `operations` allow-list of `BackupManagerOptions`
(`src/backup.ts`): `['put', 'patch', 'delete']`. -/
def defaultBackupOperations : List AuditOp := [.put, .patch, .delete]

/-- Abstract rendering of the clock as an identifier string: stands for
`new Date().toISOString().replace(/[:.]/g, '-')` (`makeId` and its inline
fallback agree on this shape).  The verified properties do not depend on
the format, only on the value being a function of the clock. -/
def mkId (t : Nat) : String := "id-" ++ toString t

/-- Abstract rendering of the clock as an ISO timestamp string
(`new Date().toISOString()`). -/
def isoOfTime (t : Nat) : String := "ts-" ++ toString t

/-- Everything one invocation of `withAudit` consumes: the static
arguments (`op`, `path`, `audit`, `backup`), plus the behaviour of the
external world during this invocation — what `backup.backup` would do if
called (`backupOutcome`, taking `backupDur` milliseconds), what the
wrapped `fn` does (`action`, taking `actionDur` milliseconds), and the
clock value at entry (`start`, the `Date.now()` of line 36). -/
structure WriteGuardInput (α : Type) where
  op : AuditOp
  path : String
  audit : Option AuditCfg
  backup : Option BackupCfg
  backupOutcome : Except Thrown String
  backupDur : Nat
  action : Except Thrown α
  actionDur : Nat
  start : Nat

/-- The value `withAudit` resolves with on success:
`{ result, auditEntry: { id, backupFile } }`. -/
structure WriteGuardRet (α : Type) where
  result : α
  id : String
  backupFile : Option String

/-- Observable effects of one `withAudit` invocation: the resolution or
rejection handed to the caller, the ledger entries appended (in order),
and whether `backup.backup` was invoked / control reached the wrapped
action. -/
structure WriteGuardOutput (α : Type) where
  outcome : Except Thrown (WriteGuardRet α)
  appended : List AuditEntry
  backupCalled : Bool
  actionRan : Bool

/-- Shallow embedding of `withAudit` (`src/routes.ts`, lines 28–75).

Control flow of the source, in order: `id` from the ledger's ID
generator (or the inline fallback — both are the same function of the
clock), `t0 = Date.now()`; the auto-backup attempt, made only when
`backup && backup.options.enabled && backup.options.operations?.includes(op)`,
whose failure is caught and logged (leaving `backupFile` undefined);
`result = await fn()` inside `try`, with `status`/`error` set in `catch`
before the rethrow; the `finally` block appending exactly one entry when
`audit && audit.options.enabled`, with `backupFile` and `error` spread in
only when truthy and `durationMs: Date.now() - t0`. -/
def withAudit {α : Type} (inp : WriteGuardInput α) : WriteGuardOutput α :=
  let id := mkId inp.start
  let t0 := inp.start
  let doBackup : Bool :=
    match inp.backup with
    | none => false
    | some b => b.enabled && decide (inp.op ∈ b.operations)
  let backupFile : Option String :=
    if doBackup then
      match inp.backupOutcome with
      | .ok f => some f
      | .error _ => none
    else none
  let t1 := if doBackup then t0 + inp.backupDur else t0
  let t2 := t1 + inp.actionDur
  let status : Status :=
    match inp.action with
    | .ok _ => .ok
    | .error _ => .error
  let errMsg : Option String :=
    match inp.action with
    | .ok _ => none
    | .error e => some (derivedMsg e)
  let entry : AuditEntry :=
    { id := id
      ts := isoOfTime t2
      op := inp.op
      path := inp.path
      status := status
      backupFile := match backupFile with
        | some f => if f = "" then none else some f
        | none => none
      error := match errMsg with
        | some m => if m = "" then none else some m
        | none => none
      durationMs := t2 - t0 }
  let appended : List AuditEntry :=
    match inp.audit with
    | some a => if a.enabled then [entry] else []
    | none => []
  { outcome :=
      match inp.action with
      | .ok r => .ok { result := r, id := id, backupFile := backupFile }
      | .error e => .error e
    appended := appended
    backupCalled := doBackup
    actionRan := true }

/-- The message the orchestrator derives from the wrapped action's
outcome: `none` on success, `e.message || String(e)` on failure. -/
def actionErrMsg {α : Type} : Except Thrown α → Option String
  | .ok _ => none
  | .error e => some (derivedMsg e)

/-!
## Backup filename codec (`src/backup.ts`)

Paths and filenames are modelled as `List Char`; the regex-based
operations of the source are implemented character by character.
-/

/-- `.replace(/\//g, '.')` — the encoding direction of the path codec. -/
def mapSlashDot (p : List Char) : List Char :=
  p.map fun c => if c = '/' then '.' else c

/-- `.replace(/\./g, '/')` — the decoding direction (in `parseMeta`). -/
def mapDotSlash (p : List Char) : List Char :=
  p.map fun c => if c = '.' then '/' else c

/-- `.replace(/\//g, '_')` — used by `YamlSync.dump` auto-filenames. -/
def mapSlashUnder (p : List Char) : List Char :=
  p.map fun c => if c = '/' then '_' else c

/-- `.replace(/^\/+|\/+$/g, '')`: strip leading and trailing runs of
slashes. -/
def trimSlashes (p : List Char) : List Char :=
  ((p.dropWhile (fun c => c = '/')).reverse.dropWhile (fun c => c = '/')).reverse

/-- The literal token `root`. -/
def rootTok : List Char := ['r', 'o', 'o', 't']

/-- `(rtdbPath || 'root').replace(/^\/+|\/+$/g, '').replace(/\//g, '.') || 'root'`
(line 30 of `src/backup.ts`). -/
def safePathOf (p : List Char) : List Char :=
  let q := if p = [] then rootTok else p
  let r := mapSlashDot (trimSlashes q)
  if r = [] then rootTok else r

/-- The name of an operation kind as it appears in filenames. -/
def opName : AuditOp → List Char
  | .put => ['p', 'u', 't']
  | .patch => ['p', 'a', 't', 'c', 'h']
  | .delete => ['d', 'e', 'l', 'e', 't', 'e']
  | .push => ['p', 'u', 's', 'h']
  | .load => ['l', 'o', 'a', 'd']

/-- `${op}_` when an operation kind is present, empty otherwise. -/
def opPre : Option AuditOp → List Char
  | some o => opName o ++ ['_']
  | none => []

def yamlExt : List Char := ['.', 'y', 'a', 'm', 'l']

def ymlExt : List Char := ['.', 'y', 'm', 'l']

/-- The filename built by `BackupManager.backup` (line 33 of
`src/backup.ts`): `${opPrefix}${safePath}_${ts}.yaml`, where `ts` is the
caller-supplied correlation id or a filesystem-safe ISO timestamp. -/
def backupFilename (op : Option AuditOp) (p ts : List Char) : List Char :=
  opPre op ++ safePathOf p ++ '_' :: (ts ++ yamlExt)

/-- The fixed priority order of `OPS` in `BackupManager.parseMeta`. -/
def opsOrder : List AuditOp := [.put, .patch, .delete, .push, .load]

/-- `filename.replace(/\.ya?ml$/, '')`: strip one `.yaml` or `.yml`
extension from the end, if present. -/
def stripExt (f : List Char) : List Char :=
  if yamlExt.isSuffixOf f then f.take (f.length - 5)
  else if ymlExt.isSuffixOf f then f.take (f.length - 4)
  else f

/-- The op-detection loop of `parseMeta` (lines 59–67 of
`src/backup.ts`): the first kind `o` (in `opsOrder`) such that `base`
starts with `o + "_"` is recorded and stripped. -/
def matchOp (base : List Char) : Option AuditOp × List Char :=
  match opsOrder.find? (fun o => (opName o ++ ['_']).isPrefixOf base) with
  | some o => (some o, base.drop ((opName o).length + 1))
  | none => (none, base)

/-- One token of the timestamp pattern: a digit or a literal character. -/
inductive PatTok where
  | d
  | lit (c : Char)

/-- The pattern `\d{4}-\d{2}-\d{2}T\d{2}-\d{2}-\d{2}-\d{3}Z` of the
timestamp-suffix regex in `parseMeta`. -/
def tsPat : List PatTok :=
  [.d, .d, .d, .d, .lit '-', .d, .d, .lit '-', .d, .d, .lit 'T',
   .d, .d, .lit '-', .d, .d, .lit '-', .d, .d, .lit '-', .d, .d, .d, .lit 'Z']

def matchesPat : List PatTok → List Char → Bool
  | [], [] => true
  | .d :: ps, c :: cs => c.isDigit && matchesPat ps cs
  | .lit l :: ps, c :: cs => (c = l) && matchesPat ps cs
  | _, _ => false

/-- Whether a string is a filesystem-safe ISO timestamp
(`2026-02-18T12-00-00-000Z` shape, 24 characters). -/
def isTs (t : List Char) : Bool := matchesPat tsPat t

/-- The anchored suffix match
`rest.match(/(_(\d{4}-\d{2}-\d{2}T\d{2}-\d{2}-\d{2}-\d{3}Z))$/)` (line 71
of `src/backup.ts`): the pattern is fixed-length, so it matches exactly
when the last 25 characters are `_` followed by a timestamp.  Returns
`(everything before the match, the timestamp)` on success. -/
def stripTs (rest : List Char) : Option (List Char × List Char) :=
  if 25 ≤ rest.length then
    match rest.drop (rest.length - 25) with
    | '_' :: t => if isTs t then some (rest.take (rest.length - 25), t) else none
    | _ => none
  else none

/-- `auditId.replace(/T(\d{2})-(\d{2})-(\d{2})-(\d{3})Z/, 'T$1:$2:$3.$4Z')`
(line 74): for a well-formed 24-character timestamp the unique match sits
at a fixed offset, so the separators at positions 13, 16 and 19 become
`:`, `:` and `.`; a string the pattern does not match is unchanged. -/
def tsColon (t : List Char) : List Char :=
  if isTs t then
    t.take 13 ++ ':' :: ((t.drop 14).take 2 ++ ':' :: ((t.drop 17).take 2 ++ '.' :: t.drop 20))
  else t

/-- `BackupMeta` (`src/backup.ts`). -/
structure BackupMeta where
  file : List Char
  op : Option AuditOp
  path : List Char
  ts : List Char
  auditId : Option (List Char)
deriving DecidableEq, Repr

/-- Shallow embedding of `BackupManager.parseMeta` (lines 54–78). -/
def parseMeta (filename : List Char) : Option BackupMeta :=
  let base := stripExt filename
  let or := matchOp base
  match stripTs or.2 with
  | none => none
  | some pt =>
    let ts := tsColon pt.2
    let sp := mapDotSlash pt.1
    let path := if sp = [] then ['/'] else sp
    some { file := filename, op := or.1, path := path, ts := ts, auditId := some pt.2 }

/-- The `.yaml`/`.yml` filename filter of `BackupManager.list` (line 41). -/
def isYamlFile (f : List Char) : Bool :=
  yamlExt.isSuffixOf f || ymlExt.isSuffixOf f

/-- Shallow embedding of `BackupManager.list` (lines 39–46): `files` is
the directory enumeration as returned by `readdirSync` (which sorts
nothing); decodable filenames are kept (`filter(Boolean)` after the
`parseMeta` map), filters are applied, and the order is reversed. -/
def backupList (files : List (List Char)) (fOp : Option AuditOp)
    (fPath : Option (List Char)) : List BackupMeta :=
  let metas := (files.filter isYamlFile).filterMap parseMeta
  let metas := match fOp with
    | some o => metas.filter fun (m : BackupMeta) => m.op = some o
    | none => metas
  let metas := match fPath with
    | some p => metas.filter fun (m : BackupMeta) => m.path = p || (p ++ ['/']).isPrefixOf m.path
    | none => metas
  metas.reverse

/-!
## YAML snapshot codec (`src/yaml-sync.ts`)
-/

/-- The filename chosen by `YamlSync.dump` (line 23 of
`src/yaml-sync.ts`): the caller-supplied name, or
`rtdbPath.replace(/\//g, '_') + '.yaml'`.  The `_now` argument is the
clock value (`Date.now()`) available at call time: the source never
consults it when auto-generating the name. -/
def dumpFilename (rtdbPath : List Char) (filename : Option (List Char)) (_now : Nat) : List Char :=
  match filename with
  | some f => f
  | none => mapSlashUnder rtdbPath ++ yamlExt

/-- A parsed YAML/JSON value, as far as `YamlSync.load` inspects it. -/
inductive JVal where
  | num (n : Int)
  | str (s : List Char)
  | obj (fields : List (List Char × JVal))

/-- JavaScript truthiness of a parsed value (`if (!path) throw ...`). -/
def jtruthy : JVal → Bool
  | .num n => decide (n ≠ 0)
  | .str s => decide (s ≠ [])
  | .obj _ => true

/-- JavaScript string coercion, as used by the template literal
`${path}/${key}`. -/
def jsString : JVal → List Char
  | .str s => s
  | .num n => (toString n).toList
  | .obj _ => ("[object Object]").toList

/-- A write issued to the `RtdbDAL`: `dal.set` replaces the value at a
path, `dal.update` merge-writes into it. -/
inductive DalOp where
  | set (path : List Char) (v : JVal)
  | update (path : List Char) (v : JVal)

/-- Whether a DAL write is a merge-write (`dal.update`). -/
def isMergeOp : DalOp → Bool
  | .update _ _ => true
  | .set _ _ => false

/-- The reserved `_path` key. -/
def pathKey : List Char := ['_', 'p', 'a', 't', 'h']

/-- First-match property lookup in a parsed mapping (`doc._path`). -/
def lookupField (doc : List (List Char × JVal)) (k : List Char) : Option JVal :=
  (doc.find? fun kv => decide (kv.1 = k)).map fun kv => kv.2

/-- The per-key write loop of `YamlSync.load` (lines 49–54): for each
top-level key, one `dal.set` to `path/key` followed by one progress
notification `done/total (key)`, with `done` incremented each step. -/
def loadLoop (p : List Char) (total : Nat) :
    Nat → List (List Char × JVal) → List DalOp × List (Nat × Nat × List Char)
  | _, [] => ([], [])
  | done, (k, v) :: kvs =>
    let r := loadLoop p total (done + 1) kvs
    (DalOp.set (p ++ '/' :: k) v :: r.1, (done + 1, total, k) :: r.2)

/-- Shallow embedding of `YamlSync.load` (lines 32–56), applied to the
already-parsed document (a mapping, keys in document order).  The result
carries the restored path, the trace of DAL writes issued, and the
progress notifications emitted. -/
def yamlLoad (doc : List (List Char × JVal)) :
    Except (List Char) (List Char × List DalOp × List (Nat × Nat × List Char)) :=
  match lookupField doc pathKey with
  | none => .error (("No _path found").toList)
  | some v =>
    if jtruthy v then
      let p := jsString v
      let data := doc.filter fun kv => decide (kv.1 ≠ pathKey)
      if data.length ≤ 1 then
        .ok (p, [DalOp.update p (JVal.obj data)], [])
      else
        let r := loadLoop p data.length 0 data
        .ok (p, r.1, r.2)
    else .error (("No _path found").toList)

/-- The DAL writes `load` issues for a document. -/
def opsOf (doc : List (List Char × JVal)) : List DalOp :=
  match yamlLoad doc with
  | .ok r => r.2.1
  | .error _ => []

/-- The progress notifications `load` emits for a document. -/
def progOf (doc : List (List Char × JVal)) : List (Nat × Nat × List Char) :=
  match yamlLoad doc with
  | .ok r => r.2.2
  | .error _ => []

/-!
## Audit ledger lines (`src/audit.ts`)
-/

/-- One `append`: `appendFileSync(logFile, line + '\n')` — the serialized
entry followed by a newline is appended to the current content. -/
def appendLineTo (content line : List Char) : List Char :=
  content ++ line ++ ['\n']

/-- The ledger file content after appending each of `ls` in order. -/
def ledgerContent (ls : List (List Char)) : List Char :=
  ls.foldl appendLineTo []

/-- `content.split('\n')` for the single-character separator. -/
def splitNl : List Char → List (List Char)
  | [] => [[]]
  | c :: cs =>
    match splitNl cs with
    | [] => [[c]]
    | l :: ls => if c = '\n' then [] :: l :: ls else (c :: l) :: ls

/-- `content.split('\n').filter(Boolean)` (lines 39–41 of
`src/audit.ts`): the lines `AuditLog.list` goes on to `JSON.parse`. -/
def nonEmptyLines (content : List Char) : List (List Char) :=
  (splitNl content).filter fun l => decide (l ≠ [])

/-- The line sequence underlying the result of `AuditLog.list` with no
filters: the parsed lines, reversed to newest-first (line 46). -/
def auditListLines (content : List Char) : List (List Char) :=
  (nonEmptyLines content).reverse

/-!
## Concrete inputs used by witnesses and counterexamples
-/

/-- Pair a meta with the two fields the C7 analysis inspects. -/
def metaFileTs (m : BackupMeta) : List Char × List Char := (m.file, m.ts)

/-- C1 witness input: enabled ledger, action throws. -/
def inC1a : WriteGuardInput Nat :=
  { op := .delete, path := "users/abc", audit := some ⟨true⟩
    backup := some ⟨true, defaultBackupOperations⟩
    backupOutcome := .ok ("bf.yaml"), backupDur := 2
    action := .error ⟨some ("network timeout"), ("Error: network timeout")⟩
    actionDur := 3, start := 10 }

/-- C1 witness input: no ledger configured. -/
def inC1b : WriteGuardInput Nat :=
  { op := .put, path := "users/abc", audit := none
    backup := none, backupOutcome := .ok ("bf.yaml"), backupDur := 0
    action := .ok 7, actionDur := 1, start := 0 }

/-- C2 witness input: backup attempt throws, action succeeds. -/
def inC2 : WriteGuardInput Nat :=
  { op := .put, path := "users/abc", audit := some ⟨true⟩
    backup := some ⟨true, defaultBackupOperations⟩
    backupOutcome := .error ⟨some ("disk full"), ("Error: disk full")⟩
    backupDur := 2, action := .ok 7, actionDur := 3, start := 50 }

/-- C6 input: backup takes 5 ms, the wrapped action 3 ms. -/
def inC6 : WriteGuardInput Nat :=
  { op := .put, path := "users/abc", audit := some ⟨true⟩
    backup := some ⟨true, defaultBackupOperations⟩
    backupOutcome := .ok ("bf.yaml"), backupDur := 5
    action := .ok 0, actionDur := 3, start := 100 }

/-- C8 witness input: a `push`, with the default allow-list configured. -/
def inC8 : WriteGuardInput Nat :=
  { op := .push, path := "users/abc", audit := some ⟨true⟩
    backup := some ⟨true, defaultBackupOperations⟩
    backupOutcome := .ok ("bf.yaml"), backupDur := 2
    action := .ok 7, actionDur := 1, start := 0 }

/-- C9 counterexample input: the action throws the empty string, so
`e.message || String(e)` is `""`. -/
def inC9 : WriteGuardInput Nat :=
  { op := .delete, path := "users/abc", audit := some ⟨true⟩
    backup := none, backupOutcome := .ok ("x"), backupDur := 0
    action := .error ⟨none, ("")⟩, actionDur := 1, start := 0 }

/-- C9 witness input: the action throws an ordinary `Error`. -/
def inC9w : WriteGuardInput Nat :=
  { op := .delete, path := "users/abc", audit := some ⟨true⟩
    backup := none, backupOutcome := .ok ("x"), backupDur := 0
    action := .error ⟨some ("network timeout"), ("Error: network timeout")⟩
    actionDur := 1, start := 0 }

/-- A well-formed filesystem-safe timestamp. -/
def ts0 : List Char := ("2026-02-18T12-00-00-000Z").toList

/-- C3 counterexample document: two sibling top-level keys under `_path: p`. -/
def docC3 : List (List Char × JVal) :=
  [(pathKey, .str (("p").toList)),
   (("a").toList, .num 1), (("b").toList, .num 2)]

/-- C3 witness data: five sibling top-level keys. -/
def dataC3 : List (List Char × JVal) :=
  [(("a").toList, .num 1), (("b").toList, .num 2), (("c").toList, .num 3),
   (("d").toList, .num 4), (("e").toList, .num 5)]

/-- C7 failing directory enumeration (alphabetically sorted, as a typical
`readdirSync` returns it): a 2026 snapshot, a foreign file, a 2020
snapshot. -/
def dirC7 : List (List Char) :=
  [("delete_b_2026-02-18T12-00-00-000Z.yaml").toList,
   ("junk.yaml").toList,
   ("put_a_2020-02-18T12-00-00-000Z.yaml").toList]

/-!
## Theorems: the write-guard orchestrator
-/

/-- C1: for every invocation of `withAudit` with a configured and enabled
ledger, exactly one `AuditEntry` is appended, whether the wrapped action
returns normally or throws (the `finally` block runs before the rethrow
reaches the caller); the original failure is re-raised to the caller; and
when no ledger is configured, zero entries are appended. -/
theorem withAudit_one_entry {α : Type} (inp : WriteGuardInput α) :
    (∀ a, inp.audit = some a → a.enabled = true → ((withAudit inp).appended).length = 1)
    ∧ (inp.audit = none → (withAudit inp).appended = [])
    ∧ (∀ e, inp.action = Except.error e → (withAudit inp).outcome = Except.error e) := by
  obtain ⟨op, path, audit, backup, bo, bd, act, ad, st⟩ := inp
  refine ⟨fun a ha he => ?_, fun ha => ?_, fun e he => ?_⟩
  · subst ha; simp [withAudit, he]
  · subst ha; simp [withAudit]
  · subst he; simp [withAudit]

/-- C1 witness: at `inC1a` (ledger enabled, action throws) exactly one
entry is appended and the failure is re-raised; at `inC1b` (no ledger)
nothing is appended. -/
theorem withAudit_one_entry_witness :
    ((withAudit inC1a).appended).length = 1
    ∧ (withAudit inC1b).appended = []
    ∧ (withAudit inC1a).outcome
        = Except.error ⟨some ("network timeout"), ("Error: network timeout")⟩ :=
  ⟨(withAudit_one_entry inC1a).1 ⟨true⟩ rfl rfl,
   (withAudit_one_entry inC1b).2.1 rfl,
   (withAudit_one_entry inC1a).2.2 _ rfl⟩

/-- C2: when the pre-action backup attempt throws, the failure is caught:
control still reaches the wrapped action, the caller sees the action's
own outcome (its result, or its own failure re-raised — never the backup
failure), and any appended entry carries no `backupFile` field. -/
theorem withAudit_backup_failure_swallowed {α : Type} (inp : WriteGuardInput α) (ex : Thrown)
    (hb : inp.backupOutcome = Except.error ex) :
    (withAudit inp).actionRan = true
    ∧ ((withAudit inp).outcome = match inp.action with
        | .ok r => Except.ok { result := r, id := mkId inp.start, backupFile := none }
        | .error e => Except.error e)
    ∧ (∀ en ∈ (withAudit inp).appended, en.backupFile = none) := by
  obtain ⟨op, path, audit, backup, bo, bd, act, ad, st⟩ := inp
  subst hb
  refine ⟨rfl, ?_, ?_⟩
  · cases act <;> simp [withAudit]
  · intro en hen
    cases audit with
    | none => simp [withAudit] at hen
    | some a =>
      by_cases ha : a.enabled = true
      · simp [withAudit, ha] at hen
        cases act <;> simp [hen]
      · simp [withAudit, ha] at hen

/-- C2 witness: at `inC2` (backup throws, action succeeds) the action's
result is returned with no backup-file reference and the single appended
entry has no `backupFile` field. -/
theorem withAudit_backup_failure_swallowed_witness :
    (withAudit inC2).actionRan = true
    ∧ (withAudit inC2).outcome = Except.ok { result := 7, id := mkId 50, backupFile := none }
    ∧ (withAudit inC2).appended.map AuditEntry.backupFile = [none] := by
  have h := withAudit_backup_failure_swallowed inC2
    ⟨some ("disk full"), ("Error: disk full")⟩ rfl
  exact ⟨h.1, h.2.1, by decide⟩

/-- C6 counterexample: at `inC6` the backup attempt takes 5 ms and the
wrapped action 3 ms, yet the appended entry records `durationMs = 8`, not
3 — the duration is measured from before the snapshot attempt (`t0` is
taken at line 36 of `src/routes.ts`, before the backup block), so it does
not measure the wrapped action only. -/
theorem withAudit_duration_counterexample :
    (withAudit inC6).appended.map AuditEntry.durationMs = [8]
    ∧ inC6.backupDur = 5 ∧ inC6.actionDur = 3 ∧ (8 : Nat) ≠ 3 := by decide

/-- C6 (amended): the recorded `durationMs` measures the time from the
start of the `withAudit` invocation to the end of the wrapped action, so
it includes the duration of the pre-action snapshot attempt whenever one
is made, plus the action's own duration. -/
theorem withAudit_duration_includes_backup {α : Type} (inp : WriteGuardInput α) :
    ∀ en ∈ (withAudit inp).appended,
      en.durationMs
        = (if (withAudit inp).backupCalled then inp.backupDur else 0) + inp.actionDur := by
  obtain ⟨op, path, audit, backup, bo, bd, act, ad, st⟩ := inp
  intro en hen
  cases audit with
  | none => simp [withAudit] at hen
  | some a =>
    by_cases ha : a.enabled = true
    · simp [withAudit, ha] at hen
      subst hen
      simp [withAudit]
      split <;> omega
    · simp [withAudit, ha] at hen

/-- C6 amended witness: at `inC6` the single appended entry records
`durationMs = 5 + 3 = 8`. -/
theorem withAudit_duration_includes_backup_witness :
    AuditEntry.durationMs ((withAudit inC6).appended.headI) = 8 := by
  have h := withAudit_duration_includes_backup inC6
    ((withAudit inC6).appended.headI) (by decide)
  exact h.trans (by decide)

/-- C8: an operation kind outside the configured backup allow-list never
triggers a backup call; the default allow-list (`BackupManagerOptions`)
is `put, patch, delete`, so `push` is excluded by default. -/
theorem withAudit_allowlist {α : Type} (inp : WriteGuardInput α) (b : BackupCfg)
    (hb : inp.backup = some b) (hop : inp.op ∉ b.operations) :
    (withAudit inp).backupCalled = false
    ∧ defaultBackupOperations = [AuditOp.put, AuditOp.patch, AuditOp.delete]
    ∧ AuditOp.push ∉ defaultBackupOperations := by
  refine ⟨?_, rfl, by decide⟩
  obtain ⟨op, path, audit, backup, bo, bd, act, ad, st⟩ := inp
  subst hb
  simp [withAudit, hop]

/-- C8 witness: a `push` against the default allow-list calls no backup. -/
theorem withAudit_allowlist_witness :
    (withAudit inC8).backupCalled = false
    ∧ defaultBackupOperations = [AuditOp.put, AuditOp.patch, AuditOp.delete]
    ∧ AuditOp.push ∉ defaultBackupOperations :=
  withAudit_allowlist inC8 ⟨true, defaultBackupOperations⟩ rfl (by decide)

/-- C9 counterexample: at `inC9` the wrapped action throws the empty
string, so `e.message || String(e)` is `""`, which is falsy: the spread
`...(error && { error })` omits the field, and the appended entry has
`status = error` with no error-message field — refuting "present iff
status is error, whatever value the action throws". -/
theorem withAudit_error_field_counterexample :
    (withAudit inC9).appended.map AuditEntry.status = [Status.error]
    ∧ (withAudit inC9).appended.map AuditEntry.error = [none] := by decide

/-- C9 (amended): in every appended entry, the error-message field is
present iff the status is `error` and the message derived from the thrown
value (`e.message || String(e)`) is non-empty; and the status is `error`
iff the wrapped action threw. -/
theorem withAudit_error_field_iff {α : Type} (inp : WriteGuardInput α) :
    ∀ en ∈ (withAudit inp).appended,
      ((en.error).isSome = true
        ↔ (en.status = Status.error ∧ actionErrMsg inp.action ≠ some ("")))
      ∧ (en.status = Status.error ↔ actionErrMsg inp.action ≠ none) := by
  obtain ⟨op, path, audit, backup, bo, bd, act, ad, st⟩ := inp
  intro en hen
  cases audit with
  | none => simp [withAudit] at hen
  | some a =>
    by_cases ha : a.enabled = true
    · simp [withAudit, ha] at hen
      subst hen
      cases act with
      | ok r => simp [withAudit, actionErrMsg]
      | error e =>
        by_cases hd : derivedMsg e = ("")
        · simp [withAudit, actionErrMsg, hd]
        · simp [withAudit, actionErrMsg, hd]
    · simp [withAudit, ha] at hen

/-- C9 amended witness: at `inC9w` (action throws a normal error with a
non-empty message) both equivalences hold at the single appended entry. -/
theorem withAudit_error_field_iff_witness :
    ((AuditEntry.error ((withAudit inC9w).appended.headI)).isSome = true
      ↔ (AuditEntry.status ((withAudit inC9w).appended.headI) = Status.error
          ∧ actionErrMsg inC9w.action ≠ some ("")))
    ∧ (AuditEntry.status ((withAudit inC9w).appended.headI) = Status.error
        ↔ actionErrMsg inC9w.action ≠ none) :=
  withAudit_error_field_iff inC9w _ (by decide)

/-!
## Theorems: snapshot dump filenames
-/

/-- C5 counterexample: two `dump` calls for the same path at different
clock values auto-generate the *same* filename, `users_abc.yaml` — the
name carries no timestamp and is not unique per call, so the second call
silently overwrites the first snapshot file. -/
theorem dump_filename_counterexample :
    dumpFilename (("users/abc").toList) none 0 = dumpFilename (("users/abc").toList) none 1
    ∧ dumpFilename (("users/abc").toList) none 0 = ("users_abc.yaml").toList
    ∧ (0 : Nat) ≠ 1 := by decide

/-- C5 (amended): when no explicit filename is supplied, the
auto-generated name is a function of the path alone — slashes replaced by
underscores plus the `.yaml` extension — independent of the call time, so
every call for the same path reuses the same filename (a repeated dump
overwrites the earlier snapshot rather than creating a unique file). -/
theorem dump_filename_path_only (p : List Char) (n₁ n₂ : Nat) :
    dumpFilename p none n₁ = mapSlashUnder p ++ yamlExt
    ∧ dumpFilename p none n₁ = dumpFilename p none n₂ :=
  ⟨rfl, rfl⟩

/-!
## Theorems: ledger line handling
-/

lemma splitNl_shape (cs : List Char) : ∃ l ls, splitNl cs = l :: ls := by
  induction cs with
  | nil => exact ⟨[], [], rfl⟩
  | cons c cs ih =>
    obtain ⟨l, ls, h⟩ := ih
    by_cases hc : c = '\n'
    · exact ⟨[], l :: ls, by simp [splitNl, h, hc]⟩
    · exact ⟨c :: l, ls, by simp [splitNl, h, hc]⟩

lemma splitNl_append (a b : List Char) :
    splitNl (a ++ '\n' :: b) = splitNl a ++ splitNl b := by
  induction a with
  | nil =>
    obtain ⟨l, ls, h⟩ := splitNl_shape b
    simp [splitNl, h]
  | cons c a ih =>
    obtain ⟨u, us, hu⟩ := splitNl_shape a
    have hab : splitNl (a ++ '\n' :: b) = u :: (us ++ splitNl b) := by
      rw [ih, hu]; rfl
    by_cases hc : c = '\n' <;> simp [splitNl, hab, hu, hc]

lemma splitNl_no_nl (l : List Char) (h : '\n' ∉ l) : splitNl l = [l] := by
  induction l with
  | nil => rfl
  | cons c l ih =>
    have hc : c ≠ '\n' := fun e => h (e ▸ List.mem_cons_self c l)
    have h' : '\n' ∉ l := fun m => h (List.mem_cons_of_mem _ m)
    simp [splitNl, ih h', hc]

lemma nonEmptyLines_append (a b : List Char) :
    nonEmptyLines (a ++ '\n' :: b) = nonEmptyLines a ++ nonEmptyLines b := by
  simp [nonEmptyLines, splitNl_append, List.filter_append]

lemma nonEmptyLines_replicate (k : Nat) :
    nonEmptyLines (List.replicate k '\n') = [] := by
  induction k with
  | zero => rfl
  | succ k ih =>
    have h : List.replicate (k + 1) '\n' = [] ++ '\n' :: List.replicate k '\n' := by
      simp [List.replicate_succ]
    rw [h, nonEmptyLines_append, ih]
    rfl

lemma ledgerContent_acc (ls : List (List Char)) (c : List Char) :
    ls.foldl appendLineTo c = c ++ ls.foldl appendLineTo [] := by
  induction ls generalizing c with
  | nil => simp
  | cons l ls ih =>
    rw [List.foldl_cons, List.foldl_cons, ih, ih (appendLineTo [] l)]
    simp [appendLineTo, List.append_assoc]

lemma nonEmptyLines_ledger (ls : List (List Char))
    (h : ∀ l ∈ ls, l ≠ [] ∧ '\n' ∉ l) (k : Nat) :
    nonEmptyLines (ledgerContent ls ++ List.replicate k '\n') = ls := by
  induction ls with
  | nil => simpa [ledgerContent] using nonEmptyLines_replicate k
  | cons l ls ih =>
    have hl := h l (List.mem_cons_self l ls)
    have hcontent : ledgerContent (l :: ls) = l ++ '\n' :: ledgerContent ls := by
      show (l :: ls).foldl appendLineTo [] = _
      rw [List.foldl_cons, ledgerContent_acc]
      simp [appendLineTo, ledgerContent]
    have hassoc : (l ++ '\n' :: ledgerContent ls) ++ List.replicate k '\n'
        = l ++ '\n' :: (ledgerContent ls ++ List.replicate k '\n') := by
      simp
    have hnl : nonEmptyLines l = [l] := by
      simp [nonEmptyLines, splitNl_no_nl l hl.2, hl.1]
    rw [hcontent, hassoc, nonEmptyLines_append, hnl,
      ih fun x hx => h x (List.mem_cons_of_mem _ hx)]
    rfl

/-- C10: `AuditLog.list` parses only the non-empty lines of the ledger
file.  For any sequence of appended entries (each serialized to one
non-empty, newline-free line) the processed line sequence — even with an
arbitrary trailing run of blank lines — is exactly the appended lines,
newest first, with no spurious entry and nothing handed to the JSON
parser that was not appended; and splitting around any newline shows
that blank-line runs anywhere in the file contribute nothing. -/
theorem auditList_skips_blank_lines (ls : List (List Char))
    (h : ∀ l ∈ ls, l ≠ [] ∧ '\n' ∉ l) (k : Nat) (c₁ c₂ : List Char) :
    auditListLines (ledgerContent ls ++ List.replicate k '\n') = ls.reverse
    ∧ nonEmptyLines (c₁ ++ '\n' :: c₂) = nonEmptyLines c₁ ++ nonEmptyLines c₂ :=
  ⟨by rw [auditListLines, nonEmptyLines_ledger ls h k], nonEmptyLines_append c₁ c₂⟩

/-- C10 witness: two appended lines plus two extra blank lines list as
exactly those two lines, newest first. -/
theorem auditList_skips_blank_lines_witness :
    auditListLines (ledgerContent [("a").toList, ("b").toList] ++ List.replicate 2 '\n')
      = [("b").toList, ("a").toList]
    ∧ nonEmptyLines (("x\n\n").toList ++ '\n' :: ("y").toList)
      = nonEmptyLines (("x\n\n").toList) ++ nonEmptyLines (("y").toList) :=
  auditList_skips_blank_lines [("a").toList, ("b").toList] (by decide) 2
    (("x\n\n").toList) (("y").toList)

/-!
## Theorems: snapshot restore chunking
-/

lemma loadLoop_eq (p : List Char) (total : Nat) (data : List (List Char × JVal)) :
    ∀ done, loadLoop p total done data
      = (data.map fun kv => DalOp.set (p ++ '/' :: kv.1) kv.2,
         data.mapIdx fun i kv => (done + i + 1, total, kv.1)) := by
  induction data with
  | nil => intro done; rfl
  | cons kv kvs ih =>
    intro done
    obtain ⟨k, v⟩ := kv
    have hfun : (fun i (kv : List Char × JVal) => (done + 1 + i + 1, total, kv.1))
        = fun i kv => (done + (i + 1) + 1, total, kv.1) := by
      funext i kv
      simp only [Prod.mk.injEq, and_true, eq_self_iff_true]
      omega
    simp [loadLoop, ih (done + 1), List.mapIdx_cons, hfun]

/-- C3 counterexample: a snapshot document with `_path: p` and two
sibling top-level keys issues two sequential `dal.set` writes (replace
writes), zero merge-writes — the per-key writes of `YamlSync.load` are
`set`, not the merge (`update`) the claim states — with progress
notifications 1/2 and 2/2. -/
theorem yamlLoad_counterexample :
    opsOf docC3
      = [DalOp.set (("p/a").toList) (JVal.num 1), DalOp.set (("p/b").toList) (JVal.num 2)]
    ∧ (opsOf docC3).map isMergeOp = [false, false]
    ∧ progOf docC3 = [(1, 2, ("a").toList), (2, 2, ("b").toList)] :=
  ⟨rfl, rfl, rfl⟩

/-- C3 (amended): for every snapshot document whose data (after removing
the reserved `_path` key) has more than one top-level key, `load`
performs one replace-write (`dal.set`) per top-level key — not
merge-writes — sequentially in key order, each targeting `path/key`, and
emits a progress notification `i/n` after the i-th write; in particular a
document with five sibling keys issues five sequential writes reporting
1/5 through 5/5. -/
theorem yamlLoad_chunked_sets (p : List Char) (data : List (List Char × JVal))
    (hp : p ≠ []) (hlen : 1 < data.length) (hkeys : ∀ kv ∈ data, kv.1 ≠ pathKey) :
    yamlLoad ((pathKey, JVal.str p) :: data)
      = Except.ok (p, (data.map fun kv => DalOp.set (p ++ '/' :: kv.1) kv.2,
          data.mapIdx fun i kv => (i + 1, data.length, kv.1))) := by
  have hlook : lookupField ((pathKey, JVal.str p) :: data) pathKey = some (JVal.str p) := by
    simp [lookupField, List.find?]
  have hdata : List.filter (fun kv => !decide (kv.1 = pathKey)) data = data :=
    List.filter_eq_self.mpr fun kv hkv => by simpa using hkeys kv hkv
  have hgt : ¬ data.length ≤ 1 := by omega
  have hfun : (fun i (kv : List Char × JVal) => (0 + i + 1, data.length, kv.1))
      = fun i kv => (i + 1, data.length, kv.1) := by
    funext i kv
    simp only [Prod.mk.injEq, and_true, eq_self_iff_true]
    omega
  simp [yamlLoad, hlook, jtruthy, hp, jsString, hdata, hgt, loadLoop_eq, hfun]

/-- C3 amended witness: `load` of a document with five top-level sibling
keys issues five sequential replace-writes and reports progress 1/5
through 5/5. -/
theorem yamlLoad_chunked_sets_witness :
    yamlLoad ((pathKey, JVal.str (("p").toList)) :: dataC3)
      = Except.ok ((("p").toList),
          ([DalOp.set (("p/a").toList) (JVal.num 1), DalOp.set (("p/b").toList) (JVal.num 2),
            DalOp.set (("p/c").toList) (JVal.num 3), DalOp.set (("p/d").toList) (JVal.num 4),
            DalOp.set (("p/e").toList) (JVal.num 5)],
           [(1, 5, ("a").toList), (2, 5, ("b").toList), (3, 5, ("c").toList),
            (4, 5, ("d").toList), (5, 5, ("e").toList)])) := by
  rw [yamlLoad_chunked_sets (("p").toList) dataC3 (by decide) (by decide) (by decide)]
  rfl

/-!
## Theorems: backup listing order
-/

/-- C7 (code-bug evaluation): `BackupManager.list` only reverses the
directory enumeration, whose order follows filenames (op and path come
before the timestamp), not time.  Over the alphabetically enumerated
directory `dirC7` the result is `put_a` (2020) *before* `delete_b`
(2026) — oldest first, contradicting the "most recent first" doc comment
and the claim.  The undecodable foreign file `junk.yaml` is silently
excluded, as the claim's second half states. -/
theorem backupList_not_newest_first :
    (backupList dirC7 none none).map metaFileTs
      = [((("put_a_2020-02-18T12-00-00-000Z.yaml").toList),
          (("2020-02-18T12:00:00.000Z").toList)),
         ((("delete_b_2026-02-18T12-00-00-000Z.yaml").toList),
          (("2026-02-18T12:00:00.000Z").toList))]
    ∧ ("junk.yaml").toList ∈ dirC7
    ∧ ("junk.yaml").toList ∉ (backupList dirC7 none none).map BackupMeta.file := by
  decide

/-!
## Theorems: the snapshot filename codec round trip
-/

lemma matchesPat_length : ∀ (ps : List PatTok) (cs : List Char),
    matchesPat ps cs = true → cs.length = ps.length := by
  intro ps
  induction ps with
  | nil =>
    intro cs h
    cases cs with
    | nil => rfl
    | cons c cs => simp [matchesPat] at h
  | cons p ps ih =>
    intro cs h
    cases cs with
    | nil => cases p <;> simp [matchesPat] at h
    | cons c cs =>
      cases p with
      | d =>
        rw [matchesPat, Bool.and_eq_true] at h
        simp [ih cs h.2]
      | lit l =>
        rw [matchesPat, Bool.and_eq_true] at h
        simp [ih cs h.2]

lemma isTs_length (t : List Char) (h : isTs t = true) : t.length = 24 := by
  have := matchesPat_length tsPat t h
  simpa [tsPat] using this

lemma stripTs_append (sp t : List Char) (h : isTs t = true) :
    stripTs (sp ++ '_' :: t) = some (sp, t) := by
  have hlen2 : (sp ++ '_' :: t).length = sp.length + 25 := by
    simp [List.length_append, isTs_length t h]
  have he : sp.length + 25 - 25 = sp.length := by omega
  have hd : (sp ++ '_' :: t).drop sp.length = '_' :: t := List.drop_left sp ('_' :: t)
  have htk : (sp ++ '_' :: t).take sp.length = sp := List.take_left sp ('_' :: t)
  rw [stripTs, hlen2, if_pos (by omega), he, hd]
  simp [h, htk]

lemma prefix_underscore_split (ks : List Char) : ∀ (sp r : List Char), '_' ∉ ks →
    ((ks ++ ['_']) <+: (sp ++ '_' :: r) ↔ ks = sp ∨ (ks ++ ['_']) <+: sp) := by
  induction ks with
  | nil =>
    intro sp r _
    cases sp with
    | nil => simp [List.cons_prefix_cons]
    | cons c sp' => simp [List.cons_prefix_cons, List.nil_prefix]
  | cons a ks ih =>
    intro sp r hks
    have ha : a ≠ '_' := fun e => hks (e ▸ List.mem_cons_self _ _)
    have hks' : '_' ∉ ks := fun m => hks (List.mem_cons_of_mem _ m)
    cases sp with
    | nil => simp [List.cons_prefix_cons, ha]
    | cons c sp' =>
      simp only [List.cons_append, List.cons_prefix_cons, ih sp' r hks', List.cons.injEq]
      tauto

lemma mapSlashDot_cons (c : Char) (p : List Char) :
    mapSlashDot (c :: p) = (if c = '/' then '.' else c) :: mapSlashDot p := rfl

lemma mapDotSlash_cons (c : Char) (p : List Char) :
    mapDotSlash (c :: p) = (if c = '.' then '/' else c) :: mapDotSlash p := rfl

lemma prefix_mapSlashDot : ∀ (ks p : List Char), (∀ c ∈ ks, c ≠ '.' ∧ c ≠ '/') →
    (ks <+: mapSlashDot p ↔ ks <+: p) := by
  intro ks
  induction ks with
  | nil => intro p _; simp [List.nil_prefix]
  | cons a ks ih =>
    intro p h
    have ha := h a (List.mem_cons_self _ _)
    have h' : ∀ c ∈ ks, c ≠ '.' ∧ c ≠ '/' := fun c hc => h c (List.mem_cons_of_mem _ hc)
    cases p with
    | nil => simp [mapSlashDot]
    | cons b p' =>
      by_cases hb : b = '/'
      · subst hb
        simp [mapSlashDot_cons, List.cons_prefix_cons, ha.1, ha.2]
      · simp [mapSlashDot_cons, if_neg hb, List.cons_prefix_cons, ih p' h']

lemma eq_mapSlashDot : ∀ (ks p : List Char), (∀ c ∈ ks, c ≠ '.' ∧ c ≠ '/') →
    (mapSlashDot p = ks ↔ p = ks) := by
  intro ks
  induction ks with
  | nil =>
    intro p _
    cases p <;> simp [mapSlashDot]
  | cons a ks ih =>
    intro p h
    have ha := h a (List.mem_cons_self _ _)
    have h' : ∀ c ∈ ks, c ≠ '.' ∧ c ≠ '/' := fun c hc => h c (List.mem_cons_of_mem _ hc)
    cases p with
    | nil => simp [mapSlashDot]
    | cons b p' =>
      by_cases hb : b = '/'
      · subst hb
        simp [mapSlashDot_cons, List.cons.injEq, eq_comm (a := ('.')) , eq_comm (a := ('/')),
          ha.1, ha.2]
      · simp [mapSlashDot_cons, if_neg hb, List.cons.injEq, ih p' h']

lemma mapDotSlash_mapSlashDot (p : List Char) (h : '.' ∉ p) :
    mapDotSlash (mapSlashDot p) = p := by
  induction p with
  | nil => rfl
  | cons c p ih =>
    have hc : c ≠ '.' := fun e => h (e ▸ List.mem_cons_self _ _)
    have h' : '.' ∉ p := fun m => h (List.mem_cons_of_mem _ m)
    by_cases hcs : c = '/'
    · subst hcs
      simp [mapSlashDot_cons, mapDotSlash_cons, ih h']
    · simp [mapSlashDot_cons, mapDotSlash_cons, if_neg hcs, hc, ih h']

lemma trimSlashes_eq (p : List Char)
    (h1 : p.head? ≠ some '/') (h2 : p.getLast? ≠ some '/') : trimSlashes p = p := by
  have hd : p.dropWhile (fun c => c = '/') = p := by
    cases p with
    | nil => rfl
    | cons c p' =>
      have hc : c ≠ '/' := fun e => h1 (by simp [e])
      simp [List.dropWhile_cons, hc]
  rw [trimSlashes, hd]
  have hr : p.reverse.dropWhile (fun c => c = '/') = p.reverse := by
    cases hpr : p.reverse with
    | nil => rfl
    | cons c pr' =>
      have hc : c ≠ '/' := by
        intro e
        apply h2
        rw [← List.head?_reverse, hpr, e]
        rfl
      simp [List.dropWhile_cons, hc]
  rw [hr, List.reverse_reverse]

lemma safePathOf_eq (p : List Char) (hne : p ≠ [])
    (h1 : p.head? ≠ some '/') (h2 : p.getLast? ≠ some '/') :
    safePathOf p = mapSlashDot p := by
  have hm : mapSlashDot p ≠ [] := by
    simp [mapSlashDot, hne]
  simp only [safePathOf, if_neg hne, trimSlashes_eq p h1 h2, if_neg hm]

lemma matchOp_kind (o : AuditOp) (X : List Char) :
    matchOp (opName o ++ '_' :: X) = (some o, X) := by
  cases o <;>
    simp +decide [matchOp, opsOrder, opName, List.find?, List.isPrefixOf_cons₂,
      List.isPrefixOf_nil_left]

lemma matchOp_root (t : List Char) :
    matchOp (rootTok ++ '_' :: t) = (none, rootTok ++ '_' :: t) := rfl

lemma matchOp_nokind (p t : List Char)
    (hkind : ∀ o ∈ opsOrder, p ≠ opName o ∧ ¬ ((opName o ++ ['_']).isPrefixOf p = true)) :
    matchOp (mapSlashDot p ++ '_' :: t) = (none, mapSlashDot p ++ '_' :: t) := by
  have hfind : opsOrder.find?
      (fun o => (opName o ++ ['_']).isPrefixOf (mapSlashDot p ++ '_' :: t)) = none := by
    rw [List.find?_eq_none]
    intro o ho hpre
    rw [List.isPrefixOf_iff_prefix] at hpre
    have hou : '_' ∉ opName o := by cases o <;> decide
    rw [prefix_underscore_split (opName o) (mapSlashDot p) t hou] at hpre
    have hchars : ∀ c ∈ opName o, c ≠ '.' ∧ c ≠ '/' := by cases o <;> decide
    have hchars' : ∀ c ∈ opName o ++ ['_'], c ≠ '.' ∧ c ≠ '/' := by cases o <;> decide
    rcases hpre with h1 | h2
    · exact (hkind o ho).1 ((eq_mapSlashDot (opName o) p hchars).mp h1.symm)
    · exact (hkind o ho).2
        (List.isPrefixOf_iff_prefix.mpr ((prefix_mapSlashDot (opName o ++ ['_']) p hchars').mp h2))
  simp [matchOp, hfind]

lemma stripExt_yaml (x : List Char) : stripExt (x ++ yamlExt) = x := by
  have hsuf : yamlExt.isSuffixOf (x ++ yamlExt) = true :=
    List.isSuffixOf_iff_suffix.mpr (List.suffix_append x yamlExt)
  have hlen : (x ++ yamlExt).length - 5 = x.length := by
    simp [List.length_append, yamlExt]
  rw [stripExt, if_pos hsuf, hlen, List.take_left]

/-- C4 counterexample: the empty/root path encodes to the token `root`,
but decoding yields the literal path `root`, not `/` (the `|| '/'`
fallback in `parseMeta` fires only for an empty encoded path, which
`backup` never produces).  Further dot-free paths that fail to round-trip
exactly: a path with surrounding slashes loses them, a path starting with
an operation-kind token plus `_` loses that token to the kind-detection
loop, and a path that *is* a kind token fails to decode at all. -/
theorem backup_roundtrip_counterexample :
    (parseMeta (backupFilename none ([]) ts0)).map BackupMeta.path = some rootTok
    ∧ rootTok ≠ [('/')]
    ∧ rootTok ≠ ([] : List Char)
    ∧ (parseMeta (backupFilename none (("/users/").toList) ts0)).map BackupMeta.path
        = some (("users").toList)
    ∧ ("users").toList ≠ ("/users/").toList
    ∧ (parseMeta (backupFilename none (("put_x").toList) ts0)).map BackupMeta.path
        = some (("x").toList)
    ∧ ("x").toList ≠ ("put_x").toList
    ∧ parseMeta (backupFilename none (("put").toList) ts0) = none := by
  decide

/-- C4 (amended): for every nonempty RTDB path `p` that contains no `.`,
has no leading or trailing slash, is not itself an operation-kind token,
and does not start with an operation-kind token followed by `_`, decoding
the filename produced by encoding `p` (with any operation kind or none,
and a well-formed timestamp) recovers `p` exactly, together with the
operation kind and the timestamp; and the empty/root path encodes to the
literal token `root`, which decodes back to the path `root` (not `/`). -/
theorem backup_filename_roundtrip (p t : List Char) (op : Option AuditOp)
    (hdot : '.' ∉ p) (hne : p ≠ [])
    (hhead : p.head? ≠ some '/') (hlast : p.getLast? ≠ some '/')
    (hkind : ∀ o ∈ opsOrder, p ≠ opName o ∧ ¬ ((opName o ++ ['_']).isPrefixOf p = true))
    (ht : isTs t = true) :
    parseMeta (backupFilename op p t)
      = some { file := backupFilename op p t, op := op, path := p,
               ts := tsColon t, auditId := some t }
    ∧ parseMeta (backupFilename none ([]) t)
      = some { file := backupFilename none ([]) t, op := none, path := rootTok,
               ts := tsColon t, auditId := some t } := by
  have hsp := safePathOf_eq p hne hhead hlast
  have hmp : mapDotSlash (mapSlashDot p) = p := mapDotSlash_mapSlashDot p hdot
  constructor
  · cases op with
    | none =>
      have hb : backupFilename none p t = (mapSlashDot p ++ '_' :: t) ++ yamlExt := by
        simp [backupFilename, opPre, hsp, List.append_assoc]
      rw [hb]
      simp only [parseMeta, stripExt_yaml, matchOp_nokind p t hkind,
        stripTs_append (mapSlashDot p) t ht, hmp]
      rw [if_neg hne]
    | some o =>
      have hb : backupFilename (some o) p t
          = (opName o ++ '_' :: (mapSlashDot p ++ '_' :: t)) ++ yamlExt := by
        simp [backupFilename, opPre, hsp, List.append_assoc]
      rw [hb]
      simp only [parseMeta, stripExt_yaml, matchOp_kind o (mapSlashDot p ++ '_' :: t),
        stripTs_append (mapSlashDot p) t ht, hmp]
      rw [if_neg hne]
  · have hb2 : backupFilename none ([]) t = (rootTok ++ '_' :: t) ++ yamlExt := rfl
    rw [hb2]
    simp only [parseMeta, stripExt_yaml, matchOp_root, stripTs_append rootTok t ht]
    rfl

/-- C4 amended witness: the path `users/abc` with kind `delete` and a
concrete timestamp round-trips exactly, and the root path decodes back to
the literal path `root`. -/
theorem backup_filename_roundtrip_witness :
    parseMeta (backupFilename (some AuditOp.delete) (("users/abc").toList) ts0)
      = some { file := backupFilename (some AuditOp.delete) (("users/abc").toList) ts0,
               op := some AuditOp.delete, path := ("users/abc").toList,
               ts := tsColon ts0, auditId := some ts0 }
    ∧ parseMeta (backupFilename none ([]) ts0)
      = some { file := backupFilename none ([]) ts0, op := none, path := rootTok,
               ts := tsColon ts0, auditId := some ts0 } :=
  backup_filename_roundtrip (("users/abc").toList) ts0 (some AuditOp.delete)
    (by decide) (by decide) (by decide) (by decide) (by decide) (by decide)

end McpFirebase
